import Mathlib

/-!
Verification development for the day-kind core of `holidays_se`
(`src/day_kind.rs`): classification of calendar days into
`Weekday` / `DayBeforeHoliday` / `Holiday`, slicing of datetime ranges into
maximal constant-kind runs, and the next-occurrence finder.

The Rust code is embedded shallowly:

* An instant (`DateTime<Tz>`) is a pair of a calendar day number and a
  time-of-day offset within that day, ordered lexicographically; local
  midnight of day `d` is `⟨d, 0⟩`.  Day lengths are irrelevant to the code
  (it only ever builds midnights and compares instants), so the offset is an
  unconstrained `Nat`.
* The `Datelike` operations and the external holiday-calendar collaborator
  `next_upcoming_holiday` (which lives outside this file's source) are an
  explicit environment `Calendar` giving, for each day number, its weekday,
  its 1-based day-of-year ordinal, and the ordinal of the next upcoming
  holiday on or after it.
* The unbounded search loop inside `SliceIterator::next` (which can diverge
  in Rust when every future day has the same kind) takes explicit fuel and
  returns `Option`; likewise the iterator is driven for an explicit number
  of steps when a whole traversal is collected.
-/

namespace HolidaysSe

/-- Rust `DayKind`: closed enumeration of the three classifications. -/
inductive DayKind where
  | Weekday
  | DayBeforeHoliday
  | Holiday
deriving DecidableEq, Repr

/-- Days of the week (chrono `Weekday`). -/
inductive Weekday where
  | mon | tue | wed | thu | fri | sat | sun
deriving DecidableEq, Repr

/-- Modelled from the spec: the holiday-calendar collaborator
`super::next_upcoming_holiday` lives outside this file's source, and the spec
treats it as an external interface (`next_upcoming_holiday(date) ->
(ordinal, date)`, total, inclusive of the queried date).  This environment
packages it together with the `Datelike` operations the classifier uses: for
a day number it gives the weekday, the 1-based day-of-year ordinal, and the
day-of-year ordinal of the next upcoming holiday on or after that day (the
`ordinal()` of the date returned by `next_upcoming_holiday`). -/
structure Calendar where
  weekday : Nat → Weekday
  ordinal : Nat → Nat
  holidayOrd : Nat → Nat

/-- Embedding of `HasDayKind::day_kind` (src/day_kind.rs, lines 31-48):
Sunday is a holiday; else a day whose ordinal equals the next upcoming
holiday's ordinal is a holiday; else a day whose ordinal is one less, or a
Saturday, is a day before a holiday; else an ordinary weekday. -/
def dayKind (C : Calendar) (d : Nat) : DayKind :=
  let weekday := C.weekday d
  if weekday = Weekday.sun then DayKind.Holiday
  else
    let selfOrd := C.ordinal d
    let nextHolidayOrd := C.holidayOrd d
    if selfOrd = nextHolidayOrd then DayKind.Holiday
    else if selfOrd = nextHolidayOrd - 1 ∨ weekday = Weekday.sat then
      DayKind.DayBeforeHoliday
    else DayKind.Weekday

/-- An instant (`DateTime<Tz>`): a calendar day number plus a time-of-day
offset within that day.  Local midnight of day `d` is `⟨d, 0⟩`. -/
structure Instant where
  day : Nat
  tod : Nat
deriving DecidableEq, Repr

/-- Instants are ordered lexicographically: first by day, then by offset. -/
instance : LinearOrder Instant :=
  LinearOrder.lift' (fun i => toLex (i.day, i.tod))
    (fun a b h => by
      cases a; cases b
      simpa using congrArg ofLex h)

theorem Instant.le_def {a b : Instant} :
    a ≤ b ↔ a.day < b.day ∨ (a.day = b.day ∧ a.tod ≤ b.tod) :=
  Prod.Lex.le_iff (a.day, a.tod) (b.day, b.tod)

theorem Instant.lt_def {a b : Instant} :
    a < b ↔ a.day < b.day ∨ (a.day = b.day ∧ a.tod < b.tod) :=
  Prod.Lex.lt_iff (a.day, a.tod) (b.day, b.tod)

/-- An instant is before the midnight of day `d + 1` exactly when its date is
at most `d`. -/
theorem Instant.lt_midnight_iff {i : Instant} {d : Nat} :
    i < ⟨d + 1, 0⟩ ↔ i.day ≤ d := by
  rw [Instant.lt_def]
  dsimp only
  constructor
  · rintro (h | ⟨h, hc⟩)
    · omega
    · omega
  · intro h
    left
    omega

/-- Midnight of day `d` is at most an instant exactly when `d` is at most the
instant's date. -/
theorem Instant.midnight_le_iff {i : Instant} {d : Nat} :
    (⟨d, 0⟩ : Instant) ≤ i ↔ d ≤ i.day := by
  rw [Instant.le_def]
  dsimp only
  constructor
  · rintro (h | ⟨h, _⟩)
    · omega
    · omega
  · intro h
    rcases Nat.lt_or_ge d i.day with h' | h'
    · exact Or.inl h'
    · exact Or.inr ⟨by omega, by omega⟩

theorem Instant.le_day {a b : Instant} (h : a ≤ b) : a.day ≤ b.day := by
  rw [Instant.le_def] at h
  rcases h with h | ⟨h, _⟩ <;> omega

/-- A `DateTime<Tz>` is `Datelike`; its classification goes through its
calendar date. -/
def Instant.dayKind (C : Calendar) (i : Instant) : DayKind :=
  HolidaysSe.dayKind C i.day

/-- Half-open range `start..stop` of instants (Rust `Range<DateTime<Tz>>`;
Rust's field `end` is a Lean keyword, hence `stop`). -/
structure DtRange where
  start : Instant
  stop : Instant
deriving DecidableEq, Repr

/-- Embedding of `DayKindSlice`: a range plus the constant kind over it. -/
structure DayKindSlice where
  range : DtRange
  kind : DayKind
deriving DecidableEq, Repr

/-- Embedding of the `SliceIterator` state: the cursor `start` (stepped
forward) and the optional bound `end` (a Lean keyword, hence `endI`). -/
structure SliceIterator where
  start : Instant
  endI : Option Instant
deriving DecidableEq, Repr

/-- The guard at the top of `SliceIterator::next`:
`self.end.map(|end| end <= self.start).unwrap_or(false)`. -/
def isExhausted (it : SliceIterator) : Bool :=
  match it.endI with
  | some e => e ≤ it.start
  | none => false

/-- Embedding of the `loop` inside `SliceIterator::next` (src/day_kind.rs,
lines 75-102).  `stepDay` is the date of the probe `step` (only its date is
ever used); `next_day` is the local midnight following it.  The loop first
checks whether the bound falls before that midnight (yielding the final
slice `[start, end)`), then whether the kind changes at that midnight
(yielding `[start, next_day)`), and otherwise advances one day.  Rust's loop
has no intrinsic bound, so it takes fuel and returns `none` when the fuel
runs out. -/
def sliceLoop (C : Calendar) (endI : Option Instant) (start : Instant)
    (startKind : DayKind) : Nat → Nat → Option (DayKindSlice × Instant)
  | _, 0 => none
  | stepDay, fuel + 1 =>
    let nextDay : Instant := ⟨stepDay + 1, 0⟩
    match endI with
    | some e =>
      if e < nextDay then
        some (⟨⟨start, e⟩, startKind⟩, e)
      else if Instant.dayKind C nextDay ≠ startKind then
        some (⟨⟨start, nextDay⟩, startKind⟩, nextDay)
      else
        sliceLoop C endI start startKind (stepDay + 1) fuel
    | none =>
      if Instant.dayKind C nextDay ≠ startKind then
        some (⟨⟨start, nextDay⟩, startKind⟩, nextDay)
      else
        sliceLoop C endI start startKind (stepDay + 1) fuel

/-- Embedding of `SliceIterator::next` (src/day_kind.rs, lines 67-103): if
the bound is at or before the cursor the iterator is exhausted; otherwise
classify the cursor and run the probing loop, which on success returns the
yielded slice and the advanced cursor. -/
def sliceNext (C : Calendar) (it : SliceIterator) (fuel : Nat) :
    Option (DayKindSlice × SliceIterator) :=
  if isExhausted it then none
  else
    match sliceLoop C it.endI it.start (Instant.dayKind C it.start) it.start.day fuel with
    | none => none
    | some (res, newStart) => some (res, ⟨newStart, it.endI⟩)

/-- Embedding of `slice_on_day_kind` (src/day_kind.rs, lines 107-112): build
the iterator with the range's start as cursor and its end as bound.  No
validation of the range ordering is performed. -/
def sliceOnDayKind (range : DtRange) : SliceIterator :=
  ⟨range.start, some range.stop⟩

/-- Embedding of `SliceIterator::from_dt`: unbounded mode. -/
def fromDt (start : Instant) : SliceIterator :=
  ⟨start, none⟩

/-- Drive the iterator for at most `n` calls of `next`, collecting the
yielded slices in order (models consuming the Rust iterator). -/
def runSlices (C : Calendar) (fuel : Nat) : SliceIterator → Nat → List DayKindSlice
  | _, 0 => []
  | it, n + 1 =>
    match sliceNext C it fuel with
    | none => []
    | some (sl, it') => sl :: runSlices C fuel it' n

/-- Iterator `find` specialised to slices of a given kind (the search inside
`DayKind::next_start`), driven for at most `n` yields. -/
def findSlice (C : Calendar) (k : DayKind) (fuel : Nat) :
    SliceIterator → Nat → Option DayKindSlice
  | _, 0 => none
  | it, n + 1 =>
    match sliceNext C it fuel with
    | none => none
    | some (sl, it') =>
      if sl.kind = k then some sl else findSlice C k fuel it' n

/-- Embedding of `DayKind::next_start` (src/day_kind.rs, lines 15-20): run
the unbounded slicer from `dt`, find the first slice of kind `k`, and return
its start.  Rust's final `unwrap` is modelled by the `Option`. -/
def nextStart (C : Calendar) (k : DayKind) (dt : Instant) (fuel n : Nat) :
    Option Instant :=
  (findSlice C k fuel (fromDt dt) n).map (fun sl => sl.range.start)

/-- Number of `day_kind()` invocations performed by one run of the probing
loop: one per evaluation of `next_day.day_kind() != start_kind` (the bound
check in the same iteration precedes it and costs nothing). -/
def sliceLoopCount (C : Calendar) (endI : Option Instant)
    (startKind : DayKind) : Nat → Nat → Nat
  | _, 0 => 0
  | stepDay, fuel + 1 =>
    let nextDay : Instant := ⟨stepDay + 1, 0⟩
    match endI with
    | some e =>
      if e < nextDay then 0
      else if Instant.dayKind C nextDay ≠ startKind then 1
      else 1 + sliceLoopCount C endI startKind (stepDay + 1) fuel
    | none =>
      if Instant.dayKind C nextDay ≠ startKind then 1
      else 1 + sliceLoopCount C endI startKind (stepDay + 1) fuel

/-- Number of `day_kind()` invocations performed by one call of
`SliceIterator::next`: none when exhausted, else one for
`self.start.day_kind()` plus the loop's probes. -/
def sliceNextCount (C : Calendar) (it : SliceIterator) (fuel : Nat) : Nat :=
  if isExhausted it then 0
  else 1 + sliceLoopCount C it.endI (Instant.dayKind C it.start) it.start.day fuel

/-- Total `day_kind()` invocations across driving the iterator for at most
`n` calls of `next` (the final, `None`-returning call included). -/
def runCount (C : Calendar) (fuel : Nat) : SliceIterator → Nat → Nat
  | _, 0 => 0
  | it, n + 1 =>
    match sliceNext C it fuel with
    | none => sliceNextCount C it fuel
    | some (_, it') => sliceNextCount C it fuel + runCount C fuel it' n

/-- A plain calendar used for concrete instances: day 0 is a Monday, the
ordinal is the day number plus one, and the next upcoming holiday is fixed
far away at ordinal 1000, so weekdays classify purely by weekday. -/
def Cw : Calendar where
  weekday d :=
    match d % 7 with
    | 0 => Weekday.mon
    | 1 => Weekday.tue
    | 2 => Weekday.wed
    | 3 => Weekday.thu
    | 4 => Weekday.fri
    | 5 => Weekday.sat
    | _ => Weekday.sun
  ordinal d := d + 1
  holidayOrd _ := 1000

/-- A calendar in which day 5 is a Saturday that is itself the next upcoming
holiday (its ordinal 6 equals the holiday ordinal) — the shape of Midsummer's
Day or of a Christmas Day falling on a Saturday. -/
def Csat : Calendar where
  weekday d :=
    match d % 7 with
    | 0 => Weekday.mon
    | 1 => Weekday.tue
    | 2 => Weekday.wed
    | 3 => Weekday.thu
    | 4 => Weekday.fri
    | 5 => Weekday.sat
    | _ => Weekday.sun
  ordinal d := d + 1
  holidayOrd _ := 6

/-- Reference classification rule, written from the spec's words (§4.1
Algorithm, steps 1-6, evaluated in order): Sunday → Holiday; ordinal equals
the next upcoming holiday's ordinal → Holiday; ordinal equals that ordinal
minus one, or Saturday → DayBeforeHoliday; otherwise Weekday. -/
def classifySpec (C : Calendar) (d : Nat) : DayKind :=
  if C.weekday d = Weekday.sun then DayKind.Holiday
  else if C.ordinal d = C.holidayOrd d then DayKind.Holiday
  else if C.ordinal d = C.holidayOrd d - 1 ∨ C.weekday d = Weekday.sat then
    DayKind.DayBeforeHoliday
  else DayKind.Weekday

/-- The slices `L` tile the range `[s, e)`: the list is empty exactly when
`s = e`, and otherwise its head starts at `s`, each slice is nonempty, each
slice's start is the previous slice's stop, and the last slice stops at `e`. -/
def chainFrom : Instant → Instant → List DayKindSlice → Prop
  | s, e, [] => s = e
  | s, e, sl :: rest =>
    sl.range.start = s ∧ s < sl.range.stop ∧ chainFrom sl.range.stop e rest

/-- Union, as a set of instants, of the half-open ranges of a list of
slices. -/
def slicesSet (L : List DayKindSlice) : Set Instant :=
  { i | ∃ sl ∈ L, sl.range.start ≤ i ∧ i < sl.range.stop }

example : dayKind Cw 5 = DayKind.DayBeforeHoliday := by decide
example : dayKind Cw 6 = DayKind.Holiday := by decide
example : dayKind Cw 4 = DayKind.Weekday := by decide
example : dayKind Csat 5 = DayKind.Holiday := by decide

example :
    runSlices Cw 10 (sliceOnDayKind ⟨⟨4, 0⟩, ⟨7, 100⟩⟩) 10 =
      [⟨⟨⟨4, 0⟩, ⟨5, 0⟩⟩, DayKind.Weekday⟩,
       ⟨⟨⟨5, 0⟩, ⟨6, 0⟩⟩, DayKind.DayBeforeHoliday⟩,
       ⟨⟨⟨6, 0⟩, ⟨7, 0⟩⟩, DayKind.Holiday⟩,
       ⟨⟨⟨7, 0⟩, ⟨7, 100⟩⟩, DayKind.Weekday⟩] := by decide

example : runCount Cw 10 (sliceOnDayKind ⟨⟨4, 0⟩, ⟨7, 100⟩⟩) 10 = 7 := by decide

example : nextStart Cw DayKind.Weekday ⟨4, 50⟩ 3 2 = some ⟨4, 50⟩ := by decide

example : nextStart Cw DayKind.Holiday ⟨4, 50⟩ 5 5 = some ⟨6, 0⟩ := by decide

/-- An exhausted iterator yields nothing. -/
theorem sliceNext_exhausted (C : Calendar) (it : SliceIterator) (fuel : Nat)
    (h : isExhausted it = true) : sliceNext C it fuel = none := by
  unfold sliceNext
  rw [if_pos h]

/-- Driving an exhausted iterator collects no slices. -/
theorem runSlices_exhausted (C : Calendar) (it : SliceIterator) (fuel n : Nat)
    (h : isExhausted it = true) : runSlices C fuel it n = [] := by
  cases n with
  | zero => rfl
  | succ n => rw [runSlices, sliceNext_exhausted C it fuel h]

/-- Driving an exhausted iterator performs no classifier calls. -/
theorem runCount_exhausted (C : Calendar) (it : SliceIterator) (fuel n : Nat)
    (h : isExhausted it = true) : runCount C fuel it n = 0 := by
  cases n with
  | zero => rfl
  | succ n =>
    rw [runCount, sliceNext_exhausted C it fuel h]
    unfold sliceNextCount
    rw [if_pos h]

/-- Soundness of the probing loop, for a bounded or unbounded iterator: if
all days from the cursor's date up to the current probe date classify to
`k`, then a successful run yields the slice `[start, ns)` of kind `k`, every
instant inside it classifies to `k`, and the new cursor is either the bound
itself or a midnight whose day classifies differently from `k`. -/
theorem sliceLoop_sound (C : Calendar) (endI : Option Instant) (s : Instant)
    (k : DayKind) :
    ∀ fuel stepDay sl ns,
      (∀ d, s.day ≤ d → d ≤ stepDay → dayKind C d = k) →
      sliceLoop C endI s k stepDay fuel = some (sl, ns) →
      sl.range.start = s ∧ sl.range.stop = ns ∧ sl.kind = k ∧
        (∀ i : Instant, s ≤ i → i < ns → dayKind C i.day = k) ∧
        ((∃ e, endI = some e ∧ ns = e) ∨
          (stepDay < ns.day ∧ ns.tod = 0 ∧ dayKind C ns.day ≠ k)) := by
  intro fuel
  induction fuel with
  | zero =>
    intro stepDay sl ns hinv h
    simp [sliceLoop] at h
  | succ fuel ih =>
    intro stepDay sl ns hinv h
    cases endI with
    | none =>
      simp only [sliceLoop] at h
      by_cases hk : Instant.dayKind C ⟨stepDay + 1, 0⟩ ≠ k
      · rw [if_pos hk] at h
        simp only [Option.some.injEq, Prod.mk.injEq] at h
        obtain ⟨rfl, rfl⟩ := h
        refine ⟨rfl, rfl, rfl, ?_, Or.inr ⟨Nat.lt_succ_self _, rfl, hk⟩⟩
        intro i hsi hilt
        have hid : i.day ≤ stepDay := Instant.lt_midnight_iff.mp hilt
        exact hinv i.day (Instant.le_day hsi) hid
      · rw [if_neg hk] at h
        push_neg at hk
        have hinv' : ∀ d, s.day ≤ d → d ≤ stepDay + 1 → dayKind C d = k := by
          intro d h1 h2
          rcases Nat.lt_or_ge d (stepDay + 1) with h3 | h3
          · exact hinv d h1 (by omega)
          · have : d = stepDay + 1 := by omega
            subst this
            exact hk
        obtain ⟨e1, e2, e3, e4, e5⟩ := ih (stepDay + 1) sl ns hinv' h
        refine ⟨e1, e2, e3, e4, ?_⟩
        rcases e5 with ⟨e, he, _⟩ | ⟨h1, h2, h3⟩
        · exact absurd he (by simp)
        · exact Or.inr ⟨by omega, h2, h3⟩
    | some e =>
      simp only [sliceLoop] at h
      by_cases hend : e < (⟨stepDay + 1, 0⟩ : Instant)
      · rw [if_pos hend] at h
        simp only [Option.some.injEq, Prod.mk.injEq] at h
        obtain ⟨rfl, rfl⟩ := h
        refine ⟨rfl, rfl, rfl, ?_, Or.inl ⟨e, rfl, rfl⟩⟩
        intro i hsi hilt
        have hed : e.day ≤ stepDay := Instant.lt_midnight_iff.mp hend
        have hid : i.day ≤ e.day := Instant.le_day (le_of_lt hilt)
        exact hinv i.day (Instant.le_day hsi) (by omega)
      · rw [if_neg hend] at h
        by_cases hk : Instant.dayKind C ⟨stepDay + 1, 0⟩ ≠ k
        · rw [if_pos hk] at h
          simp only [Option.some.injEq, Prod.mk.injEq] at h
          obtain ⟨rfl, rfl⟩ := h
          refine ⟨rfl, rfl, rfl, ?_, Or.inr ⟨Nat.lt_succ_self _, rfl, hk⟩⟩
          intro i hsi hilt
          have hid : i.day ≤ stepDay := Instant.lt_midnight_iff.mp hilt
          exact hinv i.day (Instant.le_day hsi) hid
        · rw [if_neg hk] at h
          push_neg at hk
          have hinv' : ∀ d, s.day ≤ d → d ≤ stepDay + 1 → dayKind C d = k := by
            intro d h1 h2
            rcases Nat.lt_or_ge d (stepDay + 1) with h3 | h3
            · exact hinv d h1 (by omega)
            · have : d = stepDay + 1 := by omega
              subst this
              exact hk
          obtain ⟨e1, e2, e3, e4, e5⟩ := ih (stepDay + 1) sl ns hinv' h
          refine ⟨e1, e2, e3, e4, ?_⟩
          rcases e5 with ⟨e', he, hns⟩ | ⟨h1, h2, h3⟩
          · simp only [Option.some.injEq] at he
            exact Or.inl ⟨e, rfl, by rw [hns, ← he]⟩
          · exact Or.inr ⟨by omega, h2, h3⟩

/-- Soundness of one `next` call: a yielded slice begins at the old cursor,
stops at the new cursor, carries the old cursor's classification, every
instant inside it classifies to its kind, the bound survives unchanged, and
the new cursor is either the bound or classifies differently. -/
theorem sliceNext_sound (C : Calendar) (it : SliceIterator) (fuel : Nat)
    (sl : DayKindSlice) (it' : SliceIterator)
    (h : sliceNext C it fuel = some (sl, it')) :
    sl.range.start = it.start ∧ sl.range.stop = it'.start ∧
      it'.endI = it.endI ∧ sl.kind = Instant.dayKind C it.start ∧
      (∀ i : Instant, sl.range.start ≤ i → i < sl.range.stop →
        Instant.dayKind C i = sl.kind) ∧
      ((∃ e, it.endI = some e ∧ it'.start = e) ∨
        Instant.dayKind C it'.start ≠ sl.kind) := by
  unfold sliceNext at h
  by_cases hex : isExhausted it = true
  · rw [if_pos hex] at h
    exact absurd h (by simp)
  · rw [if_neg hex] at h
    cases hLoop : sliceLoop C it.endI it.start (Instant.dayKind C it.start)
        it.start.day fuel with
    | none => rw [hLoop] at h; exact absurd h (by simp)
    | some p =>
      obtain ⟨res, newStart⟩ := p
      rw [hLoop] at h
      simp only [Option.some.injEq, Prod.mk.injEq] at h
      obtain ⟨rfl, rfl⟩ := h
      have hinv : ∀ d, it.start.day ≤ d → d ≤ it.start.day →
          dayKind C d = Instant.dayKind C it.start := by
        intro d h1 h2
        have : d = it.start.day := by omega
        subst this
        rfl
      obtain ⟨e1, e2, e3, e4, e5⟩ :=
        sliceLoop_sound C it.endI it.start (Instant.dayKind C it.start)
          fuel it.start.day res newStart hinv hLoop
      refine ⟨e1, e2, rfl, e3, ?_, ?_⟩
      · intro i h1 h2
        rw [e3]
        exact e4 i (e1 ▸ h1) (e2 ▸ h2)
      · rcases e5 with ⟨e, he, hns⟩ | ⟨_, _, h3⟩
        · exact Or.inl ⟨e, he, hns⟩
        · rw [e3]
          exact Or.inr h3

/-- The kind-directed search equals `List.find?` over the collected yields. -/
theorem findSlice_eq_find? (C : Calendar) (k : DayKind) (fuel : Nat) :
    ∀ n it, findSlice C k fuel it n =
      (runSlices C fuel it n).find? (fun sl => decide (sl.kind = k)) := by
  intro n
  induction n with
  | zero => intro it; rfl
  | succ n ih =>
    intro it
    rw [findSlice, runSlices]
    cases hN : sliceNext C it fuel with
    | none => rfl
    | some p =>
      obtain ⟨sl, it'⟩ := p
      by_cases hk : sl.kind = k
      · simp [List.find?, hk]
      · simp [List.find?, hk, ih]

/-- C2 (counterexample): in a calendar whose day 5 is a Saturday that is
itself the next upcoming holiday (the shape of Midsummer's Day, or of a
Christmas Day falling on a Saturday), the classifier returns `Holiday`, not
`DayBeforeHoliday` — so Saturdays are not unconditionally
`DayBeforeHoliday`. -/
theorem saturday_holiday_cex :
    Csat.weekday 5 = Weekday.sat ∧ dayKind Csat 5 = DayKind.Holiday ∧
      DayKind.Holiday ≠ DayKind.DayBeforeHoliday := by decide

/-- C2 (amended): for every date whose weekday is Saturday and which is not
itself the next upcoming holiday (its ordinal differs from that holiday's
ordinal), the classifier returns `DayBeforeHoliday`. -/
theorem saturday_day_before_holiday (C : Calendar) (d : Nat)
    (hsat : C.weekday d = Weekday.sat)
    (hord : C.ordinal d ≠ C.holidayOrd d) :
    dayKind C d = DayKind.DayBeforeHoliday := by
  simp [dayKind, hsat, hord]

theorem saturday_day_before_holiday_witness :
    Cw.weekday 5 = Weekday.sat ∧ Cw.ordinal 5 ≠ Cw.holidayOrd 5 ∧
      dayKind Cw 5 = DayKind.DayBeforeHoliday :=
  ⟨by decide, by decide,
    saturday_day_before_holiday Cw 5 (by decide) (by decide)⟩

/-- C3 (counterexample): a range whose start (day 5) is after its end
(day 2) is accepted by `slice_on_day_kind` without any invalid-input signal,
and the resulting iterator produces the empty sequence — exactly what the
claim says the implementation avoids. -/
theorem slice_reversed_range_cex :
    runSlices Cw 5 (sliceOnDayKind ⟨⟨5, 0⟩, ⟨2, 0⟩⟩) 5 = [] ∧
      sliceNext Cw (sliceOnDayKind ⟨⟨5, 0⟩, ⟨2, 0⟩⟩) 5 = none := by decide

/-- C3 (amended): constructing a slicing over a range whose start is after
its end is not rejected: `slice_on_day_kind` performs no validation and the
iterator yields the empty sequence, its first `next` returning `None`. -/
theorem slice_reversed_range_empty (C : Calendar) (s e : Instant)
    (fuel n : Nat) (h : e < s) :
    sliceNext C (sliceOnDayKind ⟨s, e⟩) fuel = none ∧
      runSlices C fuel (sliceOnDayKind ⟨s, e⟩) n = [] := by
  have hex : isExhausted (sliceOnDayKind ⟨s, e⟩) = true := by
    simp [isExhausted, sliceOnDayKind]
    exact le_of_lt h
  exact ⟨sliceNext_exhausted C _ fuel hex, runSlices_exhausted C _ fuel n hex⟩

theorem slice_reversed_range_empty_witness :
    (⟨2, 0⟩ : Instant) < ⟨5, 0⟩ ∧
      (sliceNext Cw (sliceOnDayKind ⟨⟨5, 0⟩, ⟨2, 0⟩⟩) 7 = none ∧
        runSlices Cw 7 (sliceOnDayKind ⟨⟨5, 0⟩, ⟨2, 0⟩⟩) 4 = []) :=
  ⟨by decide, slice_reversed_range_empty Cw ⟨5, 0⟩ ⟨2, 0⟩ 7 4 (by decide)⟩

/-- C4: the classifier equals the spec's reference rule evaluated in order,
and in particular every Sunday classifies as `Holiday`. -/
theorem dayKind_eq_classifySpec (C : Calendar) (d : Nat) :
    dayKind C d = classifySpec C d ∧
      (C.weekday d = Weekday.sun → dayKind C d = DayKind.Holiday) := by
  constructor
  · rfl
  · intro h
    simp [dayKind, h]

theorem dayKind_eq_classifySpec_witness :
    dayKind Cw 6 = classifySpec Cw 6 ∧
      (Cw.weekday 6 = Weekday.sun → dayKind Cw 6 = DayKind.Holiday) :=
  dayKind_eq_classifySpec Cw 6

/-- C5: for every slice yielded by the slicer (bounded or unbounded mode),
every instant inside the slice's half-open range classifies to the slice's
kind. -/
theorem slice_constant_kind (C : Calendar) (it : SliceIterator) (fuel : Nat)
    (sl : DayKindSlice) (it' : SliceIterator)
    (h : sliceNext C it fuel = some (sl, it')) :
    ∀ i : Instant, sl.range.start ≤ i → i < sl.range.stop →
      Instant.dayKind C i = sl.kind :=
  (sliceNext_sound C it fuel sl it' h).2.2.2.2.1

theorem slice_constant_kind_witness :
    Instant.dayKind Cw ⟨4, 77⟩ = DayKind.Weekday :=
  slice_constant_kind Cw (fromDt ⟨4, 0⟩) 3
    ⟨⟨⟨4, 0⟩, ⟨5, 0⟩⟩, DayKind.Weekday⟩ ⟨⟨5, 0⟩, none⟩ (by decide)
    ⟨4, 77⟩ (by decide) (by decide)

/-- C6: two slices yielded by consecutive successful `next` calls never
share the same kind. -/
theorem adjacent_slices_differ (C : Calendar) (it it1 it2 : SliceIterator)
    (fuel1 fuel2 : Nat) (sl1 sl2 : DayKindSlice)
    (h1 : sliceNext C it fuel1 = some (sl1, it1))
    (h2 : sliceNext C it1 fuel2 = some (sl2, it2)) :
    sl2.kind ≠ sl1.kind := by
  obtain ⟨_, _, hE1, _, _, hlast⟩ := sliceNext_sound C it fuel1 sl1 it1 h1
  obtain ⟨_, _, _, hk2, _, _⟩ := sliceNext_sound C it1 fuel2 sl2 it2 h2
  rcases hlast with ⟨e, he, hs⟩ | hne
  · have hex : isExhausted it1 = true := by
      unfold isExhausted
      rw [hE1, he, hs]
      simp
    rw [sliceNext_exhausted C it1 fuel2 hex] at h2
    exact absurd h2 (by simp)
  · rw [hk2]
    exact hne

theorem adjacent_slices_differ_witness :
    DayKind.DayBeforeHoliday ≠ DayKind.Weekday :=
  adjacent_slices_differ Cw (fromDt ⟨4, 0⟩) ⟨⟨5, 0⟩, none⟩ ⟨⟨6, 0⟩, none⟩ 3 3
    ⟨⟨⟨4, 0⟩, ⟨5, 0⟩⟩, DayKind.Weekday⟩
    ⟨⟨⟨5, 0⟩, ⟨6, 0⟩⟩, DayKind.DayBeforeHoliday⟩ (by decide) (by decide)

/-- C7: whenever `next_start` returns, it returns the start of the first
slice of the unbounded slicing from `dt` whose kind is the target kind (the
`find?` over the yielded sequence); in particular, if `dt` itself classifies
to the target kind the returned instant is `dt` unchanged. -/
theorem next_start_inclusive (C : Calendar) (k : DayKind) (dt : Instant)
    (fuel n : Nat) (r : Instant) (h : nextStart C k dt fuel n = some r) :
    (Instant.dayKind C dt = k → r = dt) ∧
      nextStart C k dt fuel n =
        ((runSlices C fuel (fromDt dt) n).find?
            (fun sl => decide (sl.kind = k))).map (fun sl => sl.range.start) := by
  constructor
  · intro hkind
    cases n with
    | zero => exact absurd h (by simp [nextStart, findSlice])
    | succ n =>
      unfold nextStart findSlice at h
      cases hN : sliceNext C (fromDt dt) fuel with
      | none => rw [hN] at h; exact absurd h (by simp)
      | some p =>
        obtain ⟨sl, it'⟩ := p
        obtain ⟨hstart, _, _, hk, _, _⟩ :=
          sliceNext_sound C (fromDt dt) fuel sl it' hN
        rw [hN] at h
        dsimp only at h
        have hslk : sl.kind = k := by
          rw [hk]
          exact hkind
        rw [if_pos hslk] at h
        simp only [Option.map_some', Option.some.injEq] at h
        rw [← h, hstart]
        rfl
  · unfold nextStart
    rw [findSlice_eq_find?]

theorem next_start_inclusive_witness :
    nextStart Cw DayKind.Weekday ⟨4, 50⟩ 3 2 = some ⟨4, 50⟩ ∧
      ((Instant.dayKind Cw ⟨4, 50⟩ = DayKind.Weekday → (⟨4, 50⟩ : Instant) = ⟨4, 50⟩) ∧
        nextStart Cw DayKind.Weekday ⟨4, 50⟩ 3 2 =
          ((runSlices Cw 3 (fromDt ⟨4, 50⟩) 2).find?
              (fun sl => decide (sl.kind = DayKind.Weekday))).map
            (fun sl => sl.range.start)) :=
  ⟨by decide,
    next_start_inclusive Cw DayKind.Weekday ⟨4, 50⟩ 3 2 ⟨4, 50⟩ (by decide)⟩

/-- C9: the classifier is a function of the calendar date alone — two
instants whose dates agree on weekday, day-of-year ordinal and
next-upcoming-holiday ordinal classify identically, and the time-of-day
offset never influences the classification. -/
theorem day_kind_date_only (C : Calendar) (i j : Instant) (t t' : Nat)
    (hw : C.weekday i.day = C.weekday j.day)
    (ho : C.ordinal i.day = C.ordinal j.day)
    (hh : C.holidayOrd i.day = C.holidayOrd j.day) :
    Instant.dayKind C i = Instant.dayKind C j ∧
      Instant.dayKind C ⟨i.day, t⟩ = Instant.dayKind C ⟨i.day, t'⟩ := by
  constructor
  · unfold Instant.dayKind dayKind
    rw [hw, ho, hh]
  · rfl

theorem day_kind_date_only_witness :
    Cw.weekday (⟨3, 5⟩ : Instant).day = Cw.weekday (⟨3, 9⟩ : Instant).day ∧
      Cw.ordinal (⟨3, 5⟩ : Instant).day = Cw.ordinal (⟨3, 9⟩ : Instant).day ∧
      Cw.holidayOrd (⟨3, 5⟩ : Instant).day = Cw.holidayOrd (⟨3, 9⟩ : Instant).day ∧
      (Instant.dayKind Cw ⟨3, 5⟩ = Instant.dayKind Cw ⟨3, 9⟩ ∧
        Instant.dayKind Cw ⟨3, 1⟩ = Instant.dayKind Cw ⟨3, 2⟩) :=
  ⟨by decide, by decide, by decide,
    day_kind_date_only Cw ⟨3, 5⟩ ⟨3, 9⟩ 1 2 (by decide) (by decide) (by decide)⟩

/-- C10: for every range whose end is at or before its start,
`slice_on_day_kind` yields the empty sequence — the first `next` returns
`None` with no classifier invocation, and driving the iterator any number of
steps collects nothing. -/
theorem empty_range_no_slices (C : Calendar) (s e : Instant) (fuel n : Nat)
    (h : e ≤ s) :
    sliceNext C (sliceOnDayKind ⟨s, e⟩) fuel = none ∧
      sliceNextCount C (sliceOnDayKind ⟨s, e⟩) fuel = 0 ∧
      runSlices C fuel (sliceOnDayKind ⟨s, e⟩) n = [] := by
  have hex : isExhausted (sliceOnDayKind ⟨s, e⟩) = true := by
    simp [isExhausted, sliceOnDayKind]
    exact h
  refine ⟨sliceNext_exhausted C _ fuel hex, ?_, runSlices_exhausted C _ fuel n hex⟩
  unfold sliceNextCount
  rw [if_pos hex]

theorem empty_range_no_slices_witness :
    (⟨3, 7⟩ : Instant) ≤ ⟨3, 7⟩ ∧
      (sliceNext Cw (sliceOnDayKind ⟨⟨3, 7⟩, ⟨3, 7⟩⟩) 6 = none ∧
        sliceNextCount Cw (sliceOnDayKind ⟨⟨3, 7⟩, ⟨3, 7⟩⟩) 6 = 0 ∧
        runSlices Cw 6 (sliceOnDayKind ⟨⟨3, 7⟩, ⟨3, 7⟩⟩) 3 = []) :=
  ⟨by decide, empty_range_no_slices Cw ⟨3, 7⟩ ⟨3, 7⟩ 6 3 (by decide)⟩

/-- Completion of the probing loop in bounded mode: with enough fuel the
loop yields `[start, ns)` with the cursor's kind, where the new cursor `ns`
is after `start`, at most the bound, and either equals the bound or lies on
a strictly later day; the loop performs exactly `ns.day - stepDay`
classifier probes. -/
theorem sliceLoop_bounded (C : Calendar) (e s : Instant) (k : DayKind)
    (hse : s < e) :
    ∀ fuel stepDay, s.day ≤ stepDay → stepDay ≤ e.day →
      e.day + 1 - stepDay ≤ fuel →
      ∃ ns : Instant,
        sliceLoop C (some e) s k stepDay fuel = some (⟨⟨s, ns⟩, k⟩, ns) ∧
          s < ns ∧ ns ≤ e ∧ (ns = e ∨ stepDay < ns.day) ∧
          sliceLoopCount C (some e) k stepDay fuel = ns.day - stepDay := by
  intro fuel
  induction fuel with
  | zero => intro stepDay h1 h2 h3; omega
  | succ fuel ih =>
    intro stepDay h1 h2 h3
    by_cases hend : e < (⟨stepDay + 1, 0⟩ : Instant)
    · have hed : e.day ≤ stepDay := Instant.lt_midnight_iff.mp hend
      refine ⟨e, ?_, hse, le_refl e, Or.inl rfl, ?_⟩
      · simp only [sliceLoop]
        rw [if_pos hend]
      · simp only [sliceLoopCount]
        rw [if_pos hend]
        omega
    · have hstep : stepDay + 1 ≤ e.day :=
        Instant.midnight_le_iff.mp (le_of_not_lt hend)
      by_cases hk : Instant.dayKind C ⟨stepDay + 1, 0⟩ ≠ k
      · refine ⟨⟨stepDay + 1, 0⟩, ?_, ?_, le_of_not_lt hend,
          Or.inr (Nat.lt_succ_self _), ?_⟩
        · simp only [sliceLoop]
          rw [if_neg hend, if_pos hk]
        · rw [Instant.lt_def]
          dsimp only
          left
          omega
        · simp only [sliceLoopCount]
          rw [if_neg hend, if_pos hk]
          omega
      · obtain ⟨ns, heq, hn1, hn2, hn3, hcnt⟩ :=
          ih (stepDay + 1) (by omega) hstep (by omega)
        have hnsday : stepDay + 1 ≤ ns.day := by
          rcases hn3 with rfl | h
          · omega
          · omega
        refine ⟨ns, ?_, hn1, hn2, Or.inr (by omega), ?_⟩
        · simp only [sliceLoop]
          rw [if_neg hend, if_neg hk]
          exact heq
        · simp only [sliceLoopCount]
          rw [if_neg hend, if_neg hk]
          omega

/-- Completion of one `next` call in bounded mode, with its exact classifier
cost: one call for the cursor plus one per probed day. -/
theorem sliceNext_bounded (C : Calendar) (e : Instant) (it : SliceIterator)
    (fuel : Nat) (hE : it.endI = some e) (hlt : it.start < e)
    (hf : e.day + 1 - it.start.day ≤ fuel) :
    ∃ ns : Instant,
      sliceNext C it fuel =
        some (⟨⟨it.start, ns⟩, Instant.dayKind C it.start⟩, ⟨ns, some e⟩) ∧
        it.start < ns ∧ ns ≤ e ∧ (ns = e ∨ it.start.day < ns.day) ∧
        sliceNextCount C it fuel = 1 + (ns.day - it.start.day) := by
  have hex : isExhausted it = false := by
    simp only [isExhausted, hE, decide_eq_false_iff_not]
    exact not_le.mpr hlt
  have hd : it.start.day ≤ e.day := Instant.le_day (le_of_lt hlt)
  obtain ⟨ns, heq, h1, h2, h3, hcnt⟩ :=
    sliceLoop_bounded C e it.start (Instant.dayKind C it.start) hlt fuel
      it.start.day (le_refl _) hd hf
  refine ⟨ns, ?_, h1, h2, h3, ?_⟩
  · unfold sliceNext
    rw [if_neg (by simp [hex]), hE, heq]
  · unfold sliceNextCount
    rw [if_neg (by simp [hex]), hE, hcnt]

/-- Driving the bounded iterator from `s` for enough steps with enough fuel
tiles `[s, e)` exactly. -/
theorem runSlices_chain (C : Calendar) (e : Instant) :
    ∀ n fuel s, s ≤ e → e.day + 1 - s.day ≤ fuel → e.day + 1 - s.day ≤ n →
      chainFrom s e (runSlices C fuel ⟨s, some e⟩ n) := by
  intro n
  induction n with
  | zero =>
    intro fuel s h1 h2 h3
    have := Instant.le_day h1
    omega
  | succ n ih =>
    intro fuel s h1 h2 h3
    rcases eq_or_lt_of_le h1 with heq | hlt
    · subst heq
      rw [runSlices_exhausted C _ fuel _ (by simp [isExhausted])]
      exact rfl
    · obtain ⟨ns, heq, hn1, hn2, hn3, _⟩ :=
        sliceNext_bounded C e ⟨s, some e⟩ fuel rfl hlt h2
      dsimp only at heq hn1 hn3
      rw [runSlices, heq]
      dsimp only
      refine ⟨rfl, hn1, ?_⟩
      rcases hn3 with rfl | hday
      · rw [runSlices_exhausted C ⟨ns, some ns⟩ fuel n (by simp [isExhausted])]
        exact rfl
      · have hsd : s.day ≤ e.day := Instant.le_day h1
        have hnd : ns.day ≤ e.day := Instant.le_day hn2
        exact ih fuel ns hn2 (by omega) (by omega)

/-- A chain tiling `[s, e)` starts at or after `s` and ends at or before
`e`. -/
theorem chainFrom_le (e : Instant) :
    ∀ L s, chainFrom s e L → s ≤ e := by
  intro L
  induction L with
  | nil => intro s h; exact le_of_eq h
  | cons sl rest ih =>
    intro s h
    simp only [chainFrom] at h
    obtain ⟨_, h2, h3⟩ := h
    exact le_trans (le_of_lt h2) (ih _ h3)

/-- Every slice of a chain tiling `[s, e)` lies inside `[s, e)`. -/
theorem chainFrom_mem_bounds (e : Instant) :
    ∀ L s, chainFrom s e L →
      ∀ sl ∈ L, s ≤ sl.range.start ∧ sl.range.stop ≤ e := by
  intro L
  induction L with
  | nil => intro s _ sl hsl; cases hsl
  | cons a rest ih =>
    intro s h sl hsl
    simp only [chainFrom] at h
    obtain ⟨h1, h2, h3⟩ := h
    rcases List.mem_cons.mp hsl with rfl | hmem
    · exact ⟨le_of_eq h1.symm, chainFrom_le e rest sl.range.stop h3⟩
    · obtain ⟨m1, m2⟩ := ih a.range.stop h3 sl hmem
      exact ⟨le_trans (le_of_lt h2) m1, m2⟩

/-- The slices of a chain are pairwise ordered: each one ends at or before
any later one starts (hence pairwise non-overlapping and sorted by start). -/
theorem chainFrom_pairwise (e : Instant) :
    ∀ L s, chainFrom s e L →
      L.Pairwise (fun a b => a.range.stop ≤ b.range.start) := by
  intro L
  induction L with
  | nil => intro s _; exact List.Pairwise.nil
  | cons a rest ih =>
    intro s h
    simp only [chainFrom] at h
    obtain ⟨_, _, h3⟩ := h
    refine List.Pairwise.cons ?_ (ih a.range.stop h3)
    intro b hb
    exact (chainFrom_mem_bounds e rest a.range.stop h3 b hb).1

/-- The union of a chain's slices, as a set of instants, is exactly
`[s, e)`. -/
theorem chainFrom_slicesSet (e : Instant) :
    ∀ L s, chainFrom s e L → slicesSet L = Set.Ico s e := by
  intro L
  induction L with
  | nil =>
    intro s h
    have hse : s = e := h
    subst hse
    rw [Set.Ico_self]
    ext i
    simp [slicesSet]
  | cons a rest ih =>
    intro s h
    simp only [chainFrom] at h
    obtain ⟨h1, h2, h3⟩ := h
    have hrest := ih a.range.stop h3
    have hstop : a.range.stop ≤ e := chainFrom_le e rest a.range.stop h3
    ext i
    simp only [slicesSet, Set.mem_setOf_eq, List.mem_cons, Set.mem_Ico]
    constructor
    · rintro ⟨sl, hsl | hsl, hi1, hi2⟩
      · subst hsl
        exact ⟨h1 ▸ hi1, lt_of_lt_of_le hi2 hstop⟩
      · have hmem : i ∈ slicesSet rest := ⟨sl, hsl, hi1, hi2⟩
        rw [hrest] at hmem
        obtain ⟨hi1', hi2'⟩ := hmem
        exact ⟨le_trans (le_of_lt h2) hi1', hi2'⟩
    · rintro ⟨hs, he'⟩
      by_cases hcase : i < a.range.stop
      · exact ⟨a, Or.inl rfl, h1.symm ▸ hs, hcase⟩
      · have hmem : i ∈ slicesSet rest := by
          rw [hrest]
          exact ⟨le_of_not_lt hcase, he'⟩
        obtain ⟨sl, hsl, hi1, hi2⟩ := hmem
        exact ⟨sl, Or.inr hsl, hi1, hi2⟩

/-- C1: for every bounded range `[s, e)` with `s ≤ e`, a full traversal of
`slice_on_day_kind (s..e)` (enough fuel and steps for the spanned days)
yields a chain of nonempty slices: the first starts at `s`, each next slice
starts where the previous one stopped, the last stops at `e`
(`chainFrom`); their union as a set of instants is exactly `[s, e)`; and
they are pairwise ordered and non-overlapping. -/
theorem runSlices_partition (C : Calendar) (s e : Instant) (fuel n : Nat)
    (hse : s ≤ e) (hf : e.day + 1 - s.day ≤ fuel)
    (hn : e.day + 1 - s.day ≤ n) :
    chainFrom s e (runSlices C fuel (sliceOnDayKind ⟨s, e⟩) n) ∧
      slicesSet (runSlices C fuel (sliceOnDayKind ⟨s, e⟩) n) = Set.Ico s e ∧
      (runSlices C fuel (sliceOnDayKind ⟨s, e⟩) n).Pairwise
        (fun a b => a.range.stop ≤ b.range.start) := by
  have hchain := runSlices_chain C e n fuel s hse hf hn
  exact ⟨hchain, chainFrom_slicesSet e _ s hchain,
    chainFrom_pairwise e _ s hchain⟩

theorem runSlices_partition_witness :
    (⟨4, 0⟩ : Instant) ≤ ⟨7, 100⟩ ∧
      (⟨7, 100⟩ : Instant).day + 1 - (⟨4, 0⟩ : Instant).day ≤ 4 ∧
      (chainFrom ⟨4, 0⟩ ⟨7, 100⟩
          (runSlices Cw 4 (sliceOnDayKind ⟨⟨4, 0⟩, ⟨7, 100⟩⟩) 4) ∧
        slicesSet (runSlices Cw 4 (sliceOnDayKind ⟨⟨4, 0⟩, ⟨7, 100⟩⟩) 4) =
          Set.Ico ⟨4, 0⟩ ⟨7, 100⟩ ∧
        (runSlices Cw 4 (sliceOnDayKind ⟨⟨4, 0⟩, ⟨7, 100⟩⟩) 4).Pairwise
          (fun a b => a.range.stop ≤ b.range.start)) :=
  ⟨by decide, by decide,
    runSlices_partition Cw ⟨4, 0⟩ ⟨7, 100⟩ 4 4 (by decide) (by decide)
      (by decide)⟩

/-- Total classifier cost of driving the bounded iterator, for any number of
steps: at most two calls per spanned calendar day. -/
theorem runCount_bounded (C : Calendar) (e : Instant) :
    ∀ n fuel s, s ≤ e → e.day + 1 - s.day ≤ fuel →
      runCount C fuel ⟨s, some e⟩ n ≤ 2 * (e.day + 1 - s.day) := by
  intro n
  induction n with
  | zero => intro fuel s h1 h2; exact Nat.zero_le _
  | succ n ih =>
    intro fuel s h1 h2
    rcases eq_or_lt_of_le h1 with heq | hlt
    · subst heq
      rw [runCount_exhausted C ⟨s, some s⟩ fuel (n + 1) (by simp [isExhausted])]
      exact Nat.zero_le _
    · obtain ⟨ns, heq, hn1, hn2, hn3, hcnt⟩ :=
        sliceNext_bounded C e ⟨s, some e⟩ fuel rfl hlt h2
      dsimp only at heq hn1 hn3 hcnt
      rw [runCount, heq, hcnt]
      dsimp only
      have hsd : s.day ≤ e.day := Instant.le_day h1
      rcases hn3 with rfl | hday
      · rw [runCount_exhausted C ⟨ns, some ns⟩ fuel n (by simp [isExhausted])]
        omega
      · have hnd : ns.day ≤ e.day := Instant.le_day hn2
        have hrest := ih fuel ns hn2 (by omega)
        omega

/-- C8 (counterexample): slicing the four-day range from Friday 00:00
(day 4) to Monday mid-day (day 7, offset 100) performs 7 classifier
invocations over a full traversal — more than the 4 calendar days spanned,
because the first day of each new slice is classified again at the start of
its yield. -/
theorem classifier_calls_cex :
    runCount Cw 10 (sliceOnDayKind ⟨⟨4, 0⟩, ⟨7, 100⟩⟩) 10 = 7 ∧
      (⟨7, 100⟩ : Instant).day + 1 - (⟨4, 0⟩ : Instant).day = 4 ∧
      ¬(7 ≤ 4) := by decide

/-- C8 (amended): total classifier invocations across a bounded traversal
are bounded by twice the number of calendar days spanned by the range: each
day is probed at most once as a boundary check, but the first day of each
yielded slice is classified once more when its yield begins. -/
theorem runCount_le_two_mul_days (C : Calendar) (s e : Instant) (fuel n : Nat)
    (hse : s ≤ e) (hf : e.day + 1 - s.day ≤ fuel) :
    runCount C fuel (sliceOnDayKind ⟨s, e⟩) n ≤ 2 * (e.day + 1 - s.day) :=
  runCount_bounded C e n fuel s hse hf

theorem runCount_le_two_mul_days_witness :
    (⟨4, 0⟩ : Instant) ≤ ⟨7, 100⟩ ∧
      (⟨7, 100⟩ : Instant).day + 1 - (⟨4, 0⟩ : Instant).day ≤ 10 ∧
      runCount Cw 10 (sliceOnDayKind ⟨⟨4, 0⟩, ⟨7, 100⟩⟩) 10 ≤
        2 * ((⟨7, 100⟩ : Instant).day + 1 - (⟨4, 0⟩ : Instant).day) :=
  ⟨by decide, by decide,
    runCount_le_two_mul_days Cw ⟨4, 0⟩ ⟨7, 100⟩ 10 10 (by decide) (by decide)⟩

end HolidaysSe
